import Mathlib

/-!
Verification of the geometric feature-matrix and binning utilities of the
deepH3 repository (deeph3/util.py), shallowly embedded in Lean 4.

Conventions of the embedding:

* The binning subsystem works over exact rationals.  A bin is a pair of a
  lower bound and an optional upper bound, where the upper bound `none`
  stands for the float infinity used as the upper bound of the last
  distance bin.
* Python list-indexing errors (IndexError on bins[-1] of an empty
  comprehension list in get_dist_bins, or on bin_values[2] of a too-short
  list in get_bin_values) are modelled by Option-returning functions,
  `none` meaning the call raises.
* torch tensors of fixed shape are modelled as curried functions out of
  `Fin` types; tensors of dynamic rank (the inputs of
  generate_probabilities and bin_matrix) carry their shape as a list of
  dimension sizes.
* The geometry builders work over the real numbers, with `torch.atan2`
  modelled by the complex argument and `torch.norm` by the square root of
  the dot product.  torch produces nan/inf when normalizing a zero
  vector, while Lean real division by zero yields 0; no claim below
  depends on that degenerate case.
-/

/-! ### The binning scheme (rational model) -/

/-- A bin: a lower bound together with an optional upper bound
(`none` models the unbounded upper end `float(Inf)` of the last
distance bin). -/
abbrev Bin := ℚ × Option ℚ

/-- Membership of a value in a half-open bin `[lower, upper)`; an absent
upper bound accepts every value at or above the lower bound.  This is the
per-bin mask test `(mat >= lower_bound) & (mat < upper_bound)` of
`bin_dist_angle_matrix`, with `v < Inf` true for every finite `v`. -/
def inBin (v : ℚ) (b : Bin) : Bool :=
  decide (b.1 ≤ v) &&
    (match b.2 with
     | none => true
     | some u => decide (v < u))

/-- Model of `get_dist_bins` from deeph3/util.py.  Returns `none` when the middle
comprehension list is empty (num_bins < 3), in which case the Python code
raises IndexError on `bins[-1]`. -/
def get_dist_bins (num_bins : ℕ) : Option (List Bin) :=
  let first_bin : ℚ := 4
  let bins : List Bin :=
    (List.range (num_bins - 2)).map
      (fun (i : ℕ) =>
        (first_bin + 0.5 * (i : ℚ), some (first_bin + 0.5 + 0.5 * (i : ℚ))))
  match bins.getLast? with
  | none => none
  | some last => some ((0, some first_bin) :: (bins ++ [(last.2.getD 0, none)]))

/-- Model of `get_omega_bins` from deeph3/util.py.  (For num_bins = 0 the Python
code would raise ZeroDivisionError; every claim below assumes
num_bins ≥ 3.) -/
def get_omega_bins (num_bins : ℕ) : List Bin :=
  let first_bin : ℚ := -180
  let bin_width : ℚ := 2 * 180 / (num_bins : ℚ)
  (List.range num_bins).map
    (fun (i : ℕ) =>
      (first_bin + bin_width * (i : ℚ),
       some (first_bin + bin_width * ((i : ℚ) + 1))))

/-- Model of `get_theta_bins` from deeph3/util.py (textually identical to
`get_omega_bins`). -/
def get_theta_bins (num_bins : ℕ) : List Bin :=
  let first_bin : ℚ := -180
  let bin_width : ℚ := 2 * 180 / (num_bins : ℚ)
  (List.range num_bins).map
    (fun (i : ℕ) =>
      (first_bin + bin_width * (i : ℚ),
       some (first_bin + bin_width * ((i : ℚ) + 1))))

/-- Model of `get_phi_bins` from deeph3/util.py. -/
def get_phi_bins (num_bins : ℕ) : List Bin :=
  let first_bin : ℚ := 0
  let bin_width : ℚ := 180 / (num_bins : ℚ)
  (List.range num_bins).map
    (fun (i : ℕ) =>
      (first_bin + bin_width * (i : ℚ),
       some (first_bin + bin_width * ((i : ℚ) + 1))))

/-- Model of `get_bin_values` from deeph3/util.py.  The Python code reads
`bin_values[2]` and `bin_values[1]`, so it raises IndexError for fewer
than three bins; that failure is the `none` branch.  For
`bins = b0 :: b1 :: b2 :: rest` the code computes
`bin_width = (b2.lower - b1.lower) / 2`, adds it to every lower bound,
and finally overwrites index 0 with `bin_values[1] - 2 * bin_width`. -/
def get_bin_values (bins : List Bin) : Option (List ℚ) :=
  match bins with
  | _b0 :: b1 :: b2 :: rest =>
    let bin_width := (b2.1 - b1.1) / 2
    some ((b1.1 + bin_width - 2 * bin_width) :: (b1.1 + bin_width) ::
          (b2.1 + bin_width) :: rest.map (fun b => b.1 + bin_width))
  | _ => none

/-- The classify-by-scan loop of `bin_dist_angle_matrix` at a single cell:
`binned_matrix` starts at 0 and each enumerated bin whose mask test
matches overwrites the cell with its index, so the result is the last
matching index, or 0 when no bin matches.  `idx` is the index of the head
of the remaining list and `acc` the value currently stored in the cell. -/
def classifyFrom (v : ℚ) : List Bin → ℕ → ℕ → ℕ
  | [], _, acc => acc
  | b :: rest, idx, acc =>
    classifyFrom v rest (idx + 1) (if inBin v b then idx else acc)

/-- Classification of a single value against a bin list (the per-cell
semantics of the masked-assignment loops of `bin_dist_angle_matrix`). -/
def classify (v : ℚ) (bins : List Bin) : ℕ :=
  classifyFrom v bins 0 0

/-- The four channel bin lists used by `bin_dist_angle_matrix` and
`binned_mat_to_values`: channel 0 = distance, 1 = omega, 2 = theta,
3 = phi. -/
def channelBins (dist_bins : List Bin) (num_bins : ℕ) : Fin 4 → List Bin :=
  ![dist_bins, get_omega_bins num_bins, get_theta_bins num_bins,
    get_phi_bins num_bins]

/-- Model of `bin_dist_angle_matrix` from deeph3/util.py: a 4×N×N matrix of reals
is discretized channel-wise by the classify-by-scan loop.  `none` when
`get_dist_bins` raises (num_bins < 3). -/
def bin_dist_angle_matrix {N : ℕ} (dist_angle_mat : Fin 4 → Fin N → Fin N → ℚ)
    (num_bins : ℕ) : Option (Fin 4 → Fin N → Fin N → ℕ) :=
  match get_dist_bins num_bins with
  | none => none
  | some dist_bins =>
    some (fun c i j =>
      classify (dist_angle_mat c i j) (channelBins dist_bins num_bins c))

/-- Model of `binned_mat_to_values` from deeph3/util.py: each class index is
replaced by the representative value of its bin (`get_bin_values`).
`none` when `get_dist_bins` or one of the `get_bin_values` calls raises.
The out-of-range default of `List.getD` is never reached for class
matrices produced by `bin_dist_angle_matrix`. -/
def binned_mat_to_values {N : ℕ} (binned_mat : Fin 4 → Fin N → Fin N → ℕ)
    (num_bins : ℕ) : Option (Fin 4 → Fin N → Fin N → ℚ) :=
  match get_dist_bins num_bins with
  | none => none
  | some dist_bins =>
    match get_bin_values dist_bins,
          get_bin_values (get_omega_bins num_bins),
          get_bin_values (get_theta_bins num_bins),
          get_bin_values (get_phi_bins num_bins) with
    | some v0, some v1, some v2, some v3 =>
      some (fun c i j => (![v0, v1, v2, v3] c).getD (binned_mat c i j) 0)
    | _, _, _, _ => none

/-- A value lies strictly inside the interior of one of the bins. -/
def strictlyInside (v : ℚ) (bins : List Bin) : Prop :=
  ∃ b ∈ bins, b.1 < v ∧
    (match b.2 with
     | none => True
     | some u => v < u)

/-- Predicate `tilesFin lo hi L`: the bins of `L` tile the half-open interval
`[lo, hi)` contiguously from left to right, each bin nonempty and
bounded. -/
def tilesFin : ℚ → ℚ → List Bin → Prop
  | lo, hi, [] => lo = hi
  | lo, hi, (a, some u) :: rest => a = lo ∧ lo < u ∧ tilesFin u hi rest
  | _, _, (_, none) :: _ => False

/-- Predicate `tiles lo L`: the bins of `L` tile `[lo, ∞)` contiguously from left
to right, the last bin unbounded. -/
def tiles : ℚ → List Bin → Prop
  | _, [] => False
  | lo, [(a, none)] => a = lo
  | lo, (a, some u) :: rest => a = lo ∧ lo < u ∧ tiles u rest
  | _, (_, none) :: _ :: _ => False

/-! ### Real-vector geometry (the generate_* matrix builders) -/

/-- Coordinate vectors in 3-D (the rows of the torch coordinate tensors). -/
abbrev V3 := Fin 3 → ℝ

/-- Pointwise difference of 3-D vectors. -/
def vsub (a b : V3) : V3 := fun t => a t - b t

/-- Euclidean dot product (`(x * y).sum(-1)`). -/
def dot3 (a b : V3) : ℝ := ∑ t, a t * b t

/-- Euclidean norm (`x.norm(dim=2)`). -/
noncomputable def norm3 (a : V3) : ℝ := Real.sqrt (dot3 a a)

/-- Cross product of 3-D vectors (`torch.cross`). -/
def cross3 (a b : V3) : V3 :=
  ![a 1 * b 2 - a 2 * b 1, a 2 * b 0 - a 0 * b 2, a 0 * b 1 - a 1 * b 0]

/-- Normalization `x / x.norm(dim=2, keepdim=True)`. -/
noncomputable def normalize3 (a : V3) : V3 := fun t => a t / norm3 a

/-- Two-argument arctangent `torch.atan2(y, x)`, modelled by the complex
argument of `x + y i`. -/
noncomputable def atan2 (y x : ℝ) : ℝ := Complex.arg ⟨x, y⟩

/-- Model of `generate_dist_matrix` from deeph3/util.py.  `row_expand -
col_expand` has entry `coords[i] - coords[j]`, whose norm over the
coordinate axis is the raw distance matrix; with a mask, the cell (i, j)
is overwritten with the fill value when `not_mask[i] + not_mask[j] > 0`,
where `not_mask = 1 - mask` on the 0/1 byte mask.  With `mask=None` the
raw matrix is returned unmasked. -/
noncomputable def generate_dist_matrix {n : ℕ} (coords : Fin n → V3)
    (mask : Option (Fin n → Bool)) (mask_fill_value : ℝ) :
    Fin n → Fin n → ℝ :=
  let dist_mat : Fin n → Fin n → ℝ :=
    fun i j => norm3 (vsub (coords i) (coords j))
  match mask with
  | none => dist_mat
  | some m =>
    let not_mask : Fin n → ℕ := fun i => 1 - (if m i then 1 else 0)
    fun i j =>
      if 0 < not_mask i + not_mask j then mask_fill_value else dist_mat i j

/-- Entry (i, j) of the `dihedral_mat` of `generate_cb_cb_dihedral`
before masking.  After the torch broadcasts: `b1[i,j] = (cb - ca)[j]`,
`b2[i,j] = cb[i] - cb[j]`, `b3[i,j] = -(cb - ca)[i]`;
`n1 = normalize(b1 × b2)`, `n2 = normalize(b2 × b3)`,
`m1 = normalize(b2) × n1`; the dihedral is
`atan2(m1 · n2, n1 · n2)` converted to degrees. -/
noncomputable def cb_cb_dihedral_entry {n : ℕ}
    (ca_coords cb_coords : Fin n → V3) (i j : Fin n) : ℝ :=
  let b1 := vsub (cb_coords j) (ca_coords j)
  let b2 := vsub (cb_coords i) (cb_coords j)
  let b3 := fun t => -(vsub (cb_coords i) (ca_coords i) t)
  let n1 := normalize3 (cross3 b1 b2)
  let n2 := normalize3 (cross3 b2 b3)
  let m1 := cross3 (normalize3 b2) n1
  atan2 (dot3 m1 n2) (dot3 n1 n2) * (180 / Real.pi)

/-- Model of `generate_cb_cb_dihedral` from deeph3/util.py.  The mask parameter
defaults to None but is used unconditionally (`mask.expand(...)`), so a
None mask raises AttributeError before anything is returned: that is the
`none` branch.  With a mask, the expanded pairwise mask at (i, j) is
`mask[j] & mask[i]` and cells where it is 0 get the fill value. -/
noncomputable def generate_cb_cb_dihedral {n : ℕ}
    (ca_coords cb_coords : Fin n → V3) (mask : Option (Fin n → Bool))
    (mask_fill_value : ℝ) : Option (Fin n → Fin n → ℝ) :=
  match mask with
  | none => none
  | some m =>
    some (fun i j =>
      if m j && m i then cb_cb_dihedral_entry ca_coords cb_coords i j
      else mask_fill_value)

/-- Entry (i, j) of the `dihedral_mat` of `generate_ca_cb_dihedral`
before the final transpose and masking: `b1[i,j] = (ca - n)[j]`,
`b2[i,j] = (cb - ca)[j]`, `b3[i,j] = cb[i] - cb[j]`. -/
noncomputable def ca_cb_dihedral_entry {n : ℕ}
    (ca_coords cb_coords n_coords : Fin n → V3) (i j : Fin n) : ℝ :=
  let b1 := vsub (ca_coords j) (n_coords j)
  let b2 := vsub (cb_coords j) (ca_coords j)
  let b3 := vsub (cb_coords i) (cb_coords j)
  let n1 := normalize3 (cross3 b1 b2)
  let n2 := normalize3 (cross3 b2 b3)
  let m1 := cross3 (normalize3 b2) n1
  atan2 (dot3 m1 n2) (dot3 n1 n2) * (180 / Real.pi)

/-- Model of `generate_ca_cb_dihedral` from deeph3/util.py.  As in
`generate_cb_cb_dihedral`, a None mask raises (`none`); the computed
matrix is transposed once (`.transpose(0, 1)`) before masking, so cell
(i, j) holds the pre-transpose entry (j, i). -/
noncomputable def generate_ca_cb_dihedral {n : ℕ}
    (ca_coords cb_coords n_coords : Fin n → V3)
    (mask : Option (Fin n → Bool)) (mask_fill_value : ℝ) :
    Option (Fin n → Fin n → ℝ) :=
  match mask with
  | none => none
  | some m =>
    some (fun i j =>
      if m j && m i then ca_cb_dihedral_entry ca_coords cb_coords n_coords j i
      else mask_fill_value)

/-- Entry (i, j) of the `planar_mat` of `generate_ca_cb_cb_planar` before
the final transpose and masking: `v1[i,j] = (ca - cb)[j]`,
`v2[i,j] = cb[i] - cb[j]`, angle `arccos(v1 · v2 / (|v1| |v2|))` in
degrees. -/
noncomputable def ca_cb_cb_planar_entry {n : ℕ}
    (ca_coords cb_coords : Fin n → V3) (i j : Fin n) : ℝ :=
  let v1 := vsub (ca_coords j) (cb_coords j)
  let v2 := vsub (cb_coords i) (cb_coords j)
  Real.arccos (dot3 v1 v2 / (norm3 v1 * norm3 v2)) * (180 / Real.pi)

/-- Model of `generate_ca_cb_cb_planar` from deeph3/util.py.  As in the dihedral
builders, a None mask raises (`none`); the matrix is transposed once
before masking. -/
noncomputable def generate_ca_cb_cb_planar {n : ℕ}
    (ca_coords cb_coords : Fin n → V3) (mask : Option (Fin n → Bool))
    (mask_fill_value : ℝ) : Option (Fin n → Fin n → ℝ) :=
  match mask with
  | none => none
  | some m =>
    some (fun i j =>
      if m j && m i then ca_cb_cb_planar_entry ca_coords cb_coords j i
      else mask_fill_value)

/-- Validity of a residue index under an optional mask: a None mask
treats every residue as valid (only `generate_dist_matrix` accepts
that). -/
def validAt {n : ℕ} (mask : Option (Fin n → Bool)) (i : Fin n) : Prop :=
  match mask with
  | none => True
  | some m => m i = true

/-- The mask derivation and four-channel stacking of
`protein_dist_angle_matrix` from deeph3/util.py.  PDB parsing and
coordinate extraction are external collaborators; this models the
function from the extracted per-residue coordinate tensors onward.
`cb_mask[i]` is 1 iff the Cβ coordinate components of residue i do not
sum to zero; channel 0 is masked with `mask` alone, channels 1-3 with
`mask & cb_mask`.  The callers always pass a `some` mask to the
generators, so the match never takes the `none` arm. -/
noncomputable def protein_dist_angle_matrix {n : ℕ}
    (cb_ca_coords ca_coords cb_coords n_coords : Fin n → V3)
    (mask : Fin n → Bool) : Option (Fin 4 → Fin n → Fin n → ℝ) :=
  let cb_mask : Fin n → Bool :=
    fun i => if (∑ t, cb_coords i t) ≠ 0 then true else false
  match generate_cb_cb_dihedral ca_coords cb_coords
          (some fun i => mask i && cb_mask i) (-1),
        generate_ca_cb_dihedral ca_coords cb_coords n_coords
          (some fun i => mask i && cb_mask i) (-1),
        generate_ca_cb_cb_planar ca_coords cb_coords
          (some fun i => mask i && cb_mask i) (-1) with
  | some o1, some o2, some o3 =>
    some ![generate_dist_matrix cb_ca_coords (some mask) (-1), o1, o2, o3]
  | _, _, _ => none

/-! ### Dynamic-rank tensors (generate_probabilities, bin_matrix) -/

/-- The entries of a dense tensor of the given shape (list of dimension
sizes). -/
def TensorData : List ℕ → Type
  | [] => ℝ
  | d :: s => Fin d → TensorData s

/-- A tensor of dynamic rank: its shape together with its entries. -/
structure Tensor where
  shape : List ℕ
  data : TensorData shape

/-- Softmax (`nn.Softmax`) along one axis of length `d`, at index `k`. -/
noncomputable def softmax {d : ℕ} (v : Fin d → ℝ) (k : Fin d) : ℝ :=
  Real.exp (v k) / ∑ t, Real.exp (v t)

/-- Transpose `logits.transpose(1, 2)` on a rank-4 tensor. -/
def transpose12 {o c l1 l2 : ℕ} (d : Fin o → Fin c → Fin l1 → Fin l2 → ℝ) :
    Fin o → Fin l1 → Fin c → Fin l2 → ℝ := fun a i ch j => d a ch i j

/-- Transpose `x.transpose(2, 3)` on a rank-4 tensor. -/
def transpose23 {o l1 c l2 : ℕ} (d : Fin o → Fin l1 → Fin c → Fin l2 → ℝ) :
    Fin o → Fin l1 → Fin l2 → Fin c → ℝ := fun a i j ch => d a i ch j

/-- Model of `generate_probabilities` from deeph3/util.py: raises ValueError
unless the shape has exactly four dimensions; otherwise transposes axes
(1,2) then (2,3), moving the channel axis to the back, and applies
softmax along the final axis. -/
noncomputable def generate_probabilities (t : Tensor) : Except String Tensor :=
  match t with
  | ⟨[o, c, l1, l2], d⟩ =>
    .ok ⟨[o, l1, l2, c],
      fun a i j ch => softmax (transpose23 (transpose12 d) a i j) ch⟩
  | _ => .error "Expected a shape with four dimensions (outmats, channels, L, L)"

/-- Index (as a real) of the first maximal entry along an axis: the index
component of `probs.max(dim)[1]` at one cell.  For an empty axis, which
torch rejects, the junk value 0 is returned; no claim quantifies over
tensors with an empty axis. -/
noncomputable def argmax_entry {d : ℕ} (v : Fin d → ℝ) : ℝ :=
  if h : 0 < d then
    ((((List.finRange d).foldl
        (fun best t => if v best < v t then t else best) ⟨0, h⟩) : Fin d) : ℕ)
  else 0

/-- Value of `torch.round(torch.sum(probs.mul(bin_indices), dim=last))` at one
cell: the probability-weighted average bin index rounded to the nearest
integer. -/
noncomputable def avg_entry {d : ℕ} (v : Fin d → ℝ) : ℝ :=
  ((round (∑ t : Fin d, v t * ((t : ℕ) : ℝ)) : ℤ) : ℝ)

/-- Reduction along the last axis of a tensor, producing a tensor whose
shape drops the final dimension.  The rank-0 case, which the torch
reduction ops do not meaningfully support, returns the entry unchanged;
no claim reaches it. -/
noncomputable def reduceLast (f : {d : ℕ} → (Fin d → ℝ) → ℝ) :
    (s : List ℕ) → TensorData s → TensorData s.dropLast
  | [], x => x
  | [_], v => f v
  | _ :: d2 :: s, x => fun i => reduceLast f (d2 :: s) (x i)

/-- Model of `bin_matrix` from deeph3/util.py.  When `are_logits` it first calls
`generate_probabilities` (so a wrong-rank tensor raises there even for a
valid method), then dispatches on the method name: "max" takes the
argmax along the last (class) axis, "avg" the rounded
probability-weighted mean index; any other method name raises
ValueError. -/
noncomputable def bin_matrix (in_tensor : Tensor) (are_logits : Bool)
    (method : String) : Except String Tensor :=
  match (if are_logits then generate_probabilities in_tensor
         else .ok in_tensor) with
  | .error e => .error e
  | .ok probs =>
    if method = "max" then
      .ok ⟨probs.shape.dropLast,
        reduceLast (fun {_} v => argmax_entry v) probs.shape probs.data⟩
    else if method = "avg" then
      .ok ⟨probs.shape.dropLast,
        reduceLast (fun {_} v => avg_entry v) probs.shape probs.data⟩
    else .error "method must be in avg,max"

/-- The concrete rank-4 logits tensor, of shape (1, 1, 2, 2), used to
refute the same-shape claim about generate_probabilities. -/
noncomputable def c5_input : Tensor := ⟨[1, 1, 2, 2], fun _ _ _ _ => (0 : ℝ)⟩

/-- The concrete rank-3 tensor, of the very shape (logits, N, N)
documented in the docstring of bin_matrix, used to refute the
error-iff-bad-method claim about bin_matrix. -/
noncomputable def c9_input : Tensor := ⟨[1, 1, 1], fun _ _ _ => (0 : ℝ)⟩

/-! ### Theorems -/

/-- C8: for every num_bins < 3, constructing the distance bin scheme
fails immediately: `get_dist_bins` raises (returns `none`), and hence so
does obtaining representative values through `get_bin_values`. -/
theorem get_dist_bins_fails_of_lt_three (num_bins : ℕ) (h : num_bins < 3) :
    get_dist_bins num_bins = none ∧
    (get_dist_bins num_bins).bind get_bin_values = none := by
  interval_cases num_bins <;> exact ⟨rfl, rfl⟩

/-- Witness for C8 at the concrete input num_bins = 2. -/
theorem get_dist_bins_fails_of_lt_three_witness :
    2 < 3 ∧ (get_dist_bins 2 = none ∧
      (get_dist_bins 2).bind get_bin_values = none) :=
  ⟨by decide, get_dist_bins_fails_of_lt_three 2 (by decide)⟩

/-- C10: the three angle generators declare mask as optional with default
None but use it unconditionally, so calling them with mask omitted always
raises before returning; only `generate_dist_matrix` accepts a None mask
and then returns the raw unmasked distance matrix. -/
theorem angle_generators_reject_none_mask {n : ℕ}
    (ca_coords cb_coords n_coords coords : Fin n → V3) (fill : ℝ) :
    generate_cb_cb_dihedral ca_coords cb_coords none fill = none ∧
    generate_ca_cb_dihedral ca_coords cb_coords n_coords none fill = none ∧
    generate_ca_cb_cb_planar ca_coords cb_coords none fill = none ∧
    generate_dist_matrix coords none fill =
      fun i j => norm3 (vsub (coords i) (coords j)) :=
  ⟨rfl, rfl, rfl, rfl⟩

/-- Explicit form of `get_dist_bins` for num_bins = m + 3. -/
theorem get_dist_bins_eq (m : ℕ) :
    get_dist_bins (m + 3) =
      some ((0, some 4) ::
        ((List.range (m + 1)).map
            (fun (i : ℕ) => ((4 : ℚ) + 0.5 * (i : ℚ),
                             some ((4 : ℚ) + 0.5 + 0.5 * (i : ℚ))))
          ++ [((4 : ℚ) + 0.5 + 0.5 * (m : ℚ), none)])) := by
  have h2 : m + 3 - 2 = m + 1 := by omega
  simp only [get_dist_bins, h2, List.range_succ, List.map_append,
    List.map_cons, List.map_nil, List.getLast?_concat, Option.getD_some]

/-- The function `get_theta_bins` is the same as `get_omega_bins`. -/
theorem get_theta_bins_eq_omega : get_theta_bins = get_omega_bins := rfl

theorem get_omega_bins_length (n : ℕ) : (get_omega_bins n).length = n := by
  simp [get_omega_bins]

theorem get_phi_bins_length (n : ℕ) : (get_phi_bins n).length = n := by
  simp [get_phi_bins]

theorem get_omega_bins_getElem (n k : ℕ) (hk : k < n) :
    (get_omega_bins n)[k]? =
      some ((-180 : ℚ) + 2 * 180 / (n : ℚ) * (k : ℚ),
            some ((-180 : ℚ) + 2 * 180 / (n : ℚ) * ((k : ℚ) + 1))) := by
  simp [get_omega_bins, List.getElem?_map, List.getElem?_range hk]

theorem get_phi_bins_getElem (n k : ℕ) (hk : k < n) :
    (get_phi_bins n)[k]? =
      some ((0 : ℚ) + 180 / (n : ℚ) * (k : ℚ),
            some ((0 : ℚ) + 180 / (n : ℚ) * ((k : ℚ) + 1))) := by
  simp [get_phi_bins, List.getElem?_map, List.getElem?_range hk]

theorem dist_bins_length (m : ℕ) (bins : List Bin)
    (hb : get_dist_bins (m + 3) = some bins) : bins.length = m + 3 := by
  rw [get_dist_bins_eq] at hb
  cases hb
  simp

theorem dist_bins_getElem_zero (m : ℕ) (bins : List Bin)
    (hb : get_dist_bins (m + 3) = some bins) :
    bins[0]? = some ((0 : ℚ), some (4 : ℚ)) := by
  rw [get_dist_bins_eq] at hb
  cases hb
  simp

theorem dist_bins_getElem_mid (m k : ℕ) (bins : List Bin)
    (hb : get_dist_bins (m + 3) = some bins) (h1 : 1 ≤ k) (h2 : k ≤ m + 1) :
    bins[k]? =
      some ((4 : ℚ) + 0.5 * ((k : ℚ) - 1), some ((4 : ℚ) + 0.5 * (k : ℚ))) := by
  rw [get_dist_bins_eq] at hb
  cases hb
  obtain ⟨j, rfl⟩ : ∃ j, k = j + 1 := ⟨k - 1, by omega⟩
  have hj : j < m + 1 := by omega
  rw [List.getElem?_cons_succ, List.getElem?_append, List.length_map,
    List.length_range, if_pos hj, List.getElem?_map, List.getElem?_range hj]
  simp only [Option.map_some', Option.some.injEq, Prod.mk.injEq]
  constructor
  · push_cast
    ring
  · push_cast
    ring

theorem dist_bins_getElem_last (m : ℕ) (bins : List Bin)
    (hb : get_dist_bins (m + 3) = some bins) :
    bins[m + 2]? = some ((4 : ℚ) + 0.5 * ((m : ℚ) + 1), none) := by
  rw [get_dist_bins_eq] at hb
  cases hb
  rw [List.getElem?_cons_succ, List.getElem?_append, List.length_map,
    List.length_range, if_neg (by omega), Nat.sub_self]
  simp only [List.getElem?_cons_zero, Option.some.injEq, Prod.mk.injEq]
  exact ⟨by ring, trivial⟩

theorem inBin_some_iff (v a u : ℚ) :
    inBin v (a, some u) = true ↔ a ≤ v ∧ v < u := by
  simp [inBin]

theorem inBin_none_iff (v a : ℚ) : inBin v (a, none) = true ↔ a ≤ v := by
  simp [inBin]

theorem inBin_eq_false_of_lt (v : ℚ) (b : Bin) (h : v < b.1) :
    inBin v b = false := by
  simp [inBin, not_le.mpr h]

theorem tilesFin_le (L : List Bin) : ∀ lo hi : ℚ, tilesFin lo hi L → lo ≤ hi := by
  induction L with
  | nil => intro lo hi ht; exact le_of_eq ht
  | cons b rest ih =>
    intro lo hi ht
    obtain ⟨a, ou⟩ := b
    cases ou with
    | none => simp [tilesFin] at ht
    | some u =>
      obtain ⟨rfl, hlt, ht2⟩ := ht
      exact le_of_lt (lt_of_lt_of_le hlt (ih u hi ht2))

theorem tilesFin_countP_eq_zero (L : List Bin) :
    ∀ lo hi v : ℚ, tilesFin lo hi L → v < lo → L.countP (inBin v) = 0 := by
  induction L with
  | nil => intro lo hi v _ _; simp
  | cons b rest ih =>
    intro lo hi v ht hv
    obtain ⟨a, ou⟩ := b
    cases ou with
    | none => simp [tilesFin] at ht
    | some u =>
      obtain ⟨rfl, hlt, ht2⟩ := ht
      rw [List.countP_cons, ih u hi v ht2 (hv.trans hlt),
        inBin_eq_false_of_lt v (a, some u) hv]
      simp

theorem tiles_countP_eq_zero (L : List Bin) :
    ∀ lo v : ℚ, tiles lo L → v < lo → L.countP (inBin v) = 0 := by
  induction L with
  | nil => intro lo v ht _; simp [tiles] at ht
  | cons b rest ih =>
    intro lo v ht hv
    obtain ⟨a, ou⟩ := b
    cases ou with
    | none =>
      cases rest with
      | nil =>
        rw [tiles] at ht
        subst ht
        rw [List.countP_cons, inBin_eq_false_of_lt v (a, none) hv]
        simp
      | cons c rest2 => simp [tiles] at ht
    | some u =>
      obtain ⟨rfl, hlt, ht2⟩ := ht
      rw [List.countP_cons, ih u v ht2 (hv.trans hlt),
        inBin_eq_false_of_lt v (a, some u) hv]
      simp

theorem tilesFin_countP_eq_one (L : List Bin) :
    ∀ lo hi v : ℚ, tilesFin lo hi L → lo ≤ v → v < hi →
      L.countP (inBin v) = 1 := by
  induction L with
  | nil =>
    intro lo hi v ht hv1 hv2
    rw [ht] at hv1
    exact absurd hv2 (not_lt.mpr hv1)
  | cons b rest ih =>
    intro lo hi v ht hv1 hv2
    obtain ⟨a, ou⟩ := b
    cases ou with
    | none => simp [tilesFin] at ht
    | some u =>
      obtain ⟨rfl, hlt, ht2⟩ := ht
      rw [List.countP_cons]
      by_cases hvu : v < u
      · rw [tilesFin_countP_eq_zero rest u hi v ht2 hvu,
          (inBin_some_iff v a u).mpr ⟨hv1, hvu⟩]
        simp
      · rw [ih u hi v ht2 (not_lt.mp hvu) hv2]
        have : inBin v (a, some u) = false := by
          simp [inBin, not_lt.mp hvu, not_lt_of_le]
        rw [this]
        simp

theorem tiles_countP_eq_one (L : List Bin) :
    ∀ lo v : ℚ, tiles lo L → lo ≤ v → L.countP (inBin v) = 1 := by
  induction L with
  | nil => intro lo v ht _; simp [tiles] at ht
  | cons b rest ih =>
    intro lo v ht hv
    obtain ⟨a, ou⟩ := b
    cases ou with
    | none =>
      cases rest with
      | nil =>
        rw [tiles] at ht
        subst ht
        rw [List.countP_cons, (inBin_none_iff v a).mpr hv]
        simp
      | cons c rest2 => simp [tiles] at ht
    | some u =>
      obtain ⟨rfl, hlt, ht2⟩ := ht
      rw [List.countP_cons]
      by_cases hvu : v < u
      · rw [tiles_countP_eq_zero rest u v ht2 hvu,
          (inBin_some_iff v a u).mpr ⟨hv, hvu⟩]
        simp
      · rw [ih u v ht2 (not_lt.mp hvu)]
        have : inBin v (a, some u) = false := by
          simp [inBin, not_lt.mp hvu, not_lt_of_le]
        rw [this]
        simp

theorem tilesFin_mem_bounds (L : List Bin) :
    ∀ (lo hi : ℚ) (b : Bin), tilesFin lo hi L → b ∈ L →
      lo ≤ b.1 ∧ ∃ u, b.2 = some u ∧ u ≤ hi := by
  induction L with
  | nil => intro lo hi b _ hm; simp at hm
  | cons c rest ih =>
    intro lo hi b ht hm
    obtain ⟨a, ou⟩ := c
    cases ou with
    | none => simp [tilesFin] at ht
    | some u =>
      obtain ⟨rfl, hlt, ht2⟩ := ht
      rcases List.mem_cons.mp hm with rfl | hm2
      · exact ⟨le_refl _, u, rfl, tilesFin_le rest u hi ht2⟩
      · obtain ⟨h1, h2⟩ := ih u hi b ht2 hm2
        exact ⟨le_of_lt (lt_of_lt_of_le hlt h1), h2⟩

theorem tiles_mem_lower (L : List Bin) :
    ∀ (lo : ℚ) (b : Bin), tiles lo L → b ∈ L → lo ≤ b.1 := by
  induction L with
  | nil => intro lo b ht _; simp [tiles] at ht
  | cons c rest ih =>
    intro lo b ht hm
    obtain ⟨a, ou⟩ := c
    cases ou with
    | none =>
      cases rest with
      | nil =>
        rw [tiles] at ht
        subst ht
        rcases List.mem_cons.mp hm with rfl | hm2
        · exact le_refl _
        · simp at hm2
      | cons c2 rest2 => simp [tiles] at ht
    | some u =>
      obtain ⟨rfl, hlt, ht2⟩ := ht
      rcases List.mem_cons.mp hm with rfl | hm2
      · exact le_refl _
      · exact le_of_lt (lt_of_lt_of_le hlt (ih u b ht2 hm2))

theorem tilesFin_concat (L : List Bin) :
    ∀ lo hi u : ℚ, tilesFin lo hi L → hi < u →
      tilesFin lo u (L ++ [(hi, some u)]) := by
  induction L with
  | nil =>
    intro lo hi u ht hu
    subst ht
    exact ⟨rfl, hu, rfl⟩
  | cons b rest ih =>
    intro lo hi u ht hu
    obtain ⟨a, ou⟩ := b
    cases ou with
    | none => simp [tilesFin] at ht
    | some w =>
      obtain ⟨rfl, hlt, ht2⟩ := ht
      exact ⟨rfl, hlt, ih w hi u ht2 hu⟩

theorem tiles_concat_inf (L : List Bin) :
    ∀ lo hi : ℚ, tilesFin lo hi L → tiles lo (L ++ [(hi, none)]) := by
  induction L with
  | nil =>
    intro lo hi ht
    subst ht
    rw [List.nil_append, tiles]
  | cons b rest ih =>
    intro lo hi ht
    obtain ⟨a, ou⟩ := b
    cases ou with
    | none => simp [tilesFin] at ht
    | some w =>
      obtain ⟨rfl, hlt, ht2⟩ := ht
      have h2 := ih w hi ht2
      rw [List.cons_append]
      cases h3 : rest ++ [((hi : ℚ), (none : Option ℚ))] with
      | nil => exact absurd h3 (by simp)
      | cons c rest2 =>
        rw [h3] at h2
        exact ⟨rfl, hlt, h2⟩

theorem tilesFin_map_range (k : ℕ) (a w : ℚ) (hw : 0 < w) (f : ℕ → Bin)
    (hf : ∀ i, f i = (a + w * (i : ℚ), some (a + w * ((i : ℚ) + 1)))) :
    tilesFin a (a + w * (k : ℚ)) ((List.range k).map f) := by
  induction k with
  | zero => simp [tilesFin]
  | succ k ih =>
    have hlt : a + w * (k : ℚ) < a + w * ((k : ℚ) + 1) := by nlinarith
    have h2 := tilesFin_concat ((List.range k).map f) a (a + w * (k : ℚ))
      (a + w * ((k : ℚ) + 1)) ih hlt
    rw [List.range_succ, List.map_append, List.map_cons, List.map_nil, hf k]
    have hcast : ((k + 1 : ℕ) : ℚ) = (k : ℚ) + 1 := by push_cast; ring
    rw [hcast]
    exact h2

theorem omega_bins_tilesFin (n : ℕ) (hn : 3 ≤ n) :
    tilesFin (-180) 180 (get_omega_bins n) := by
  have hn0 : (0 : ℚ) < (n : ℚ) := by
    have : 0 < n := by omega
    exact_mod_cast this
  have hw : (0 : ℚ) < 2 * 180 / (n : ℚ) := by positivity
  have h := tilesFin_map_range n (-180) (2 * 180 / (n : ℚ)) hw _ (fun i => rfl)
  have hend : (-180 : ℚ) + 2 * 180 / (n : ℚ) * (n : ℚ) = 180 := by
    rw [div_mul_cancel₀ _ (ne_of_gt hn0)]
    norm_num
  rw [hend] at h
  simpa [get_omega_bins] using h

theorem phi_bins_tilesFin (n : ℕ) (hn : 3 ≤ n) :
    tilesFin 0 180 (get_phi_bins n) := by
  have hn0 : (0 : ℚ) < (n : ℚ) := by
    have : 0 < n := by omega
    exact_mod_cast this
  have hw : (0 : ℚ) < 180 / (n : ℚ) := by positivity
  have h := tilesFin_map_range n 0 (180 / (n : ℚ)) hw _ (fun i => rfl)
  have hend : (0 : ℚ) + 180 / (n : ℚ) * (n : ℚ) = 180 := by
    rw [div_mul_cancel₀ _ (ne_of_gt hn0)]
    norm_num
  rw [hend] at h
  simpa [get_phi_bins] using h

theorem dist_bins_tiles (m : ℕ) (bins : List Bin)
    (hb : get_dist_bins (m + 3) = some bins) : tiles 0 bins := by
  rw [get_dist_bins_eq] at hb
  cases hb
  have hmid := tilesFin_map_range (m + 1) 4 0.5 (by norm_num)
    (fun (i : ℕ) =>
      ((4 : ℚ) + 0.5 * (i : ℚ), some ((4 : ℚ) + 0.5 + 0.5 * (i : ℚ))))
    (fun i => by
      simp only [Prod.mk.injEq, Option.some.injEq]
      exact ⟨trivial, by ring⟩)
  have h2 := tiles_concat_inf _ _ _ hmid
  have hcast : (4 : ℚ) + 0.5 * ((m + 1 : ℕ) : ℚ) = 4 + 0.5 + 0.5 * (m : ℚ) := by
    push_cast
    ring
  rw [hcast] at h2
  cases h3 : ((List.range (m + 1)).map
      (fun (i : ℕ) =>
        ((4 : ℚ) + 0.5 * (i : ℚ), some ((4 : ℚ) + 0.5 + 0.5 * (i : ℚ))))
    ++ [((4 : ℚ) + 0.5 + 0.5 * (m : ℚ), (none : Option ℚ))]) with
  | nil => exact absurd h3 (by simp)
  | cons c rest2 =>
    rw [h3] at h2
    exact ⟨rfl, by norm_num, h2⟩

/-- C1: for every num_bins ≥ 3, every value in each channel's nominal
domain (distance ≥ 0, omega/theta in [-180, 180), phi in [0, 180)) lies
in exactly one of the channel's half-open bins (the count of matching
bins is one), and each channel has exactly num_bins bins, so the matching
bin's index lies in [0, num_bins). -/
theorem bins_exhaustive (num_bins : ℕ) (hn : 3 ≤ num_bins) (v : ℚ) :
    (∃ bins, get_dist_bins num_bins = some bins ∧ bins.length = num_bins ∧
       (0 ≤ v → bins.countP (inBin v) = 1)) ∧
    ((get_omega_bins num_bins).length = num_bins ∧
       (-180 ≤ v → v < 180 → (get_omega_bins num_bins).countP (inBin v) = 1)) ∧
    ((get_theta_bins num_bins).length = num_bins ∧
       (-180 ≤ v → v < 180 → (get_theta_bins num_bins).countP (inBin v) = 1)) ∧
    ((get_phi_bins num_bins).length = num_bins ∧
       (0 ≤ v → v < 180 → (get_phi_bins num_bins).countP (inBin v) = 1)) := by
  obtain ⟨m, rfl⟩ : ∃ m, num_bins = m + 3 := ⟨num_bins - 3, by omega⟩
  refine ⟨?_, ⟨get_omega_bins_length _, ?_⟩,
    ⟨by rw [get_theta_bins_eq_omega]; exact get_omega_bins_length _, ?_⟩,
    ⟨get_phi_bins_length _, ?_⟩⟩
  · obtain ⟨bins, hb⟩ : ∃ bins, get_dist_bins (m + 3) = some bins :=
      ⟨_, get_dist_bins_eq m⟩
    exact ⟨bins, hb, dist_bins_length m bins hb,
      fun hv => tiles_countP_eq_one bins 0 v (dist_bins_tiles m bins hb) hv⟩
  · exact fun h1 h2 =>
      tilesFin_countP_eq_one _ _ _ _ (omega_bins_tilesFin _ hn) h1 h2
  · rw [get_theta_bins_eq_omega]
    exact fun h1 h2 =>
      tilesFin_countP_eq_one _ _ _ _ (omega_bins_tilesFin _ hn) h1 h2
  · exact fun h1 h2 =>
      tilesFin_countP_eq_one _ _ _ _ (phi_bins_tilesFin _ hn) h1 h2

/-- Witness for C1 at num_bins = 3 and v = 0. -/
theorem bins_exhaustive_witness :
    3 ≤ 3 ∧
    ((∃ bins, get_dist_bins 3 = some bins ∧ bins.length = 3 ∧
       ((0 : ℚ) ≤ 0 → bins.countP (inBin 0) = 1)) ∧
    ((get_omega_bins 3).length = 3 ∧
       ((-180 : ℚ) ≤ 0 → (0 : ℚ) < 180 → (get_omega_bins 3).countP (inBin 0) = 1)) ∧
    ((get_theta_bins 3).length = 3 ∧
       ((-180 : ℚ) ≤ 0 → (0 : ℚ) < 180 → (get_theta_bins 3).countP (inBin 0) = 1)) ∧
    ((get_phi_bins 3).length = 3 ∧
       ((0 : ℚ) ≤ 0 → (0 : ℚ) < 180 → (get_phi_bins 3).countP (inBin 0) = 1))) :=
  ⟨by norm_num, bins_exhaustive 3 (by norm_num) 0⟩

theorem classifyFrom_no_match (v : ℚ) (L : List Bin) :
    ∀ idx acc : ℕ, (∀ b ∈ L, inBin v b = false) →
      classifyFrom v L idx acc = acc := by
  induction L with
  | nil => intro idx acc _; rfl
  | cons b rest ih =>
    intro idx acc h
    have hb := h b (List.mem_cons_self b rest)
    rw [classifyFrom, hb]
    simpa using ih (idx + 1) acc (fun c hc => h c (List.mem_cons_of_mem b hc))

theorem classifyFrom_append (v : ℚ) (L1 : List Bin) :
    ∀ (L2 : List Bin) (idx acc : ℕ),
      classifyFrom v (L1 ++ L2) idx acc =
        classifyFrom v L2 (idx + L1.length) (classifyFrom v L1 idx acc) := by
  induction L1 with
  | nil => intro L2 idx acc; simp [classifyFrom]
  | cons b rest ih =>
    intro L2 idx acc
    have heq : idx + 1 + rest.length = idx + (rest.length + 1) := by omega
    simp only [List.cons_append, classifyFrom, List.length_cons, List.append_eq]
    rw [ih, heq]

theorem classify_no_match (v : ℚ) (L : List Bin)
    (h : ∀ b ∈ L, inBin v b = false) : classify v L = 0 :=
  classifyFrom_no_match v L 0 0 h

theorem classify_eq_of_countP_one (v : ℚ) (L : List Bin) (k : ℕ) (b : Bin)
    (hcount : L.countP (inBin v) = 1) (hk : L[k]? = some b)
    (hb : inBin v b = true) : classify v L = k := by
  obtain ⟨hklen, hget⟩ := List.getElem?_eq_some_iff.mp hk
  have hsplit : L.take k ++ (b :: L.drop (k + 1)) = L := by
    rw [← hget, ← List.drop_eq_getElem_cons hklen, List.take_append_drop]
  have hcount2 : (L.take k).countP (inBin v) +
      ((L.drop (k + 1)).countP (inBin v) + 1) = 1 := by
    have := congrArg (List.countP (inBin v)) hsplit
    rw [List.countP_append, List.countP_cons, hb, if_pos rfl] at this
    omega
  have htake : ∀ c ∈ L.take k, inBin v c = false := by
    intro c hc
    have h0 : (L.take k).countP (inBin v) = 0 := by omega
    simpa using List.countP_eq_zero.mp h0 c hc
  have hdrop : ∀ c ∈ L.drop (k + 1), inBin v c = false := by
    intro c hc
    have h0 : (L.drop (k + 1)).countP (inBin v) = 0 := by omega
    simpa using List.countP_eq_zero.mp h0 c hc
  have hlen : (L.take k).length = k := by
    rw [List.length_take]
    exact min_eq_left (le_of_lt hklen)
  calc classify v L = classifyFrom v (L.take k ++ (b :: L.drop (k + 1))) 0 0 := by
        rw [hsplit]; rfl
    _ = classifyFrom v (b :: L.drop (k + 1)) k 0 := by
        rw [classifyFrom_append, classifyFrom_no_match v _ 0 0 htake, hlen,
          Nat.zero_add]
    _ = classifyFrom v (L.drop (k + 1)) (k + 1) k := by
        rw [classifyFrom, hb]
        simp
    _ = k := classifyFrom_no_match v _ (k + 1) k hdrop

theorem countP_one_elim (v : ℚ) (L : List Bin) (hcount : L.countP (inBin v) = 1) :
    ∃ k b, L[k]? = some b ∧ inBin v b = true ∧ classify v L = k := by
  have hpos : 0 < L.countP (inBin v) := by omega
  obtain ⟨b, hmem, hb⟩ := List.countP_pos_iff.mp hpos
  obtain ⟨k, hk⟩ := List.getElem?_of_mem hmem
  exact ⟨k, b, hk, hb, classify_eq_of_countP_one v L k b hcount hk hb⟩

/-- C6: a distance-channel cell holding the sentinel -1 matches no
distance bin's half-open [lower, upper) test (the count of matching bins
is 0), so the classify-by-scan loop of `bin_dist_angle_matrix` leaves its
class at the initial value 0, which is the index of the first bin
(0, 4). -/
theorem sentinel_distance_class_zero {N : ℕ} (num_bins : ℕ)
    (hn : 3 ≤ num_bins) (M : Fin 4 → Fin N → Fin N → ℚ) (i j : Fin N)
    (hij : M 0 i j = -1) :
    ∃ bins B, get_dist_bins num_bins = some bins ∧
      bins.countP (inBin (-1)) = 0 ∧
      bins[0]? = some ((0 : ℚ), some (4 : ℚ)) ∧
      bin_dist_angle_matrix M num_bins = some B ∧
      B 0 i j = 0 := by
  obtain ⟨m, rfl⟩ : ∃ m, num_bins = m + 3 := ⟨num_bins - 3, by omega⟩
  obtain ⟨bins, hb⟩ : ∃ bins, get_dist_bins (m + 3) = some bins :=
    ⟨_, get_dist_bins_eq m⟩
  have htiles := dist_bins_tiles m bins hb
  have hfalse : ∀ b ∈ bins, inBin (-1) b = false := fun b hmem =>
    inBin_eq_false_of_lt _ b
      (lt_of_lt_of_le (by norm_num) (tiles_mem_lower bins 0 b htiles hmem))
  refine ⟨bins, fun c x y => classify (M c x y) (channelBins bins (m + 3) c),
    hb, List.countP_eq_zero.mpr (fun b hmem => by simp [hfalse b hmem]),
    dist_bins_getElem_zero m bins hb, ?_, ?_⟩
  · simp only [bin_dist_angle_matrix, hb]
  · show classify (M 0 i j) (channelBins bins (m + 3) 0) = 0
    have hch : channelBins bins (m + 3) 0 = bins := rfl
    rw [hch, hij]
    exact classify_no_match _ _ hfalse

/-- Witness for C6 at num_bins = 3, N = 1, with the distance channel
holding the sentinel -1. -/
theorem sentinel_distance_class_zero_witness :
    (3 ≤ 3 ∧
      (fun (c : Fin 4) (_ _ : Fin 1) => (![(-1 : ℚ), 0, 0, 0]) c) 0 0 0 = -1) ∧
    (∃ bins B, get_dist_bins 3 = some bins ∧
      bins.countP (inBin (-1)) = 0 ∧
      bins[0]? = some ((0 : ℚ), some (4 : ℚ)) ∧
      bin_dist_angle_matrix
        (fun (c : Fin 4) (_ _ : Fin 1) => (![(-1 : ℚ), 0, 0, 0]) c) 3 = some B ∧
      B 0 0 0 = 0) :=
  ⟨⟨le_refl 3, rfl⟩,
    sentinel_distance_class_zero 3 (by norm_num)
      (fun (c : Fin 4) (_ _ : Fin 1) => (![(-1 : ℚ), 0, 0, 0]) c) 0 0 rfl⟩

/-- C4: `get_dist_bins 26` returns exactly 26 intervals: the first bin is
(0, 4); bins 1 through 24 have width 0.5 starting at 4.0, with bin 1
equal to (4.0, 4.5); and the last bin is (16.0, +inf). -/
theorem get_dist_bins_26_spec :
    ∃ bins, get_dist_bins 26 = some bins ∧ bins.length = 26 ∧
      bins[0]? = some ((0 : ℚ), some (4 : ℚ)) ∧
      (∀ i : Fin 26, 1 ≤ i.1 → i.1 ≤ 24 →
        bins[i.1]? = some ((4 : ℚ) + 0.5 * ((i.1 : ℚ) - 1),
                           some ((4 : ℚ) + 0.5 * (i.1 : ℚ)))) ∧
      bins[1]? = some ((4 : ℚ), some (4.5 : ℚ)) ∧
      bins[25]? = some ((16 : ℚ), none) := by
  obtain ⟨bins, hb⟩ : ∃ bins, get_dist_bins 26 = some bins :=
    ⟨_, get_dist_bins_eq 23⟩
  refine ⟨bins, hb, dist_bins_length 23 bins hb,
    dist_bins_getElem_zero 23 bins hb,
    fun i h1 h2 => dist_bins_getElem_mid 23 i.1 bins hb h1 h2, ?_, ?_⟩
  · have h := dist_bins_getElem_mid 23 1 bins hb (le_refl 1) (by norm_num)
    rw [h]
    norm_num
  · have h := dist_bins_getElem_last 23 bins hb
    rw [show (25 : ℕ) = 23 + 2 from rfl, h]
    norm_num

theorem get_bin_values_eq (bins : List Bin) (q1 q2 : ℚ) (o1 o2 : Option ℚ)
    (h1 : bins[1]? = some (q1, o1)) (h2 : bins[2]? = some (q2, o2)) :
    ∃ vals : List ℚ, get_bin_values bins = some vals ∧
      vals.length = bins.length ∧
      vals[0]? = some (q1 - (q2 - q1) / 2) ∧
      ∀ k, 1 ≤ k → vals[k]? = bins[k]?.map (fun b => b.1 + (q2 - q1) / 2) := by
  match bins with
  | [] => simp at h2
  | [b0] => simp at h2
  | [b0, b1] => simp at h2
  | b0 :: b1 :: b2 :: rest =>
    have hb1 : b1 = (q1, o1) := by simpa using h1
    have hb2 : b2 = (q2, o2) := by simpa using h2
    subst hb1
    subst hb2
    refine ⟨_, rfl, ?_, ?_, ?_⟩
    · simp
    · simp only [List.getElem?_cons_zero, Option.some.injEq]
      ring
    · intro k hk
      match k with
      | 0 => omega
      | 1 => simp
      | 2 => simp
      | (j + 3) => simp [List.getElem?_map]

theorem inBin_lower_le (v : ℚ) (b : Bin) (h : inBin v b = true) : b.1 ≤ v := by
  rcases b with ⟨a, ou⟩
  cases ou with
  | none => exact (inBin_none_iff v a).mp h
  | some u => exact ((inBin_some_iff v a u).mp h).1

theorem countP_one_of_inBin_tiles (lo : ℚ) (L : List Bin) (ht : tiles lo L)
    (b : Bin) (hmem : b ∈ L) (v : ℚ) (hv : inBin v b = true) :
    L.countP (inBin v) = 1 :=
  tiles_countP_eq_one L lo v ht
    (le_trans (tiles_mem_lower L lo b ht hmem) (inBin_lower_le v b hv))

theorem countP_one_of_inBin_tilesFin (lo hi : ℚ) (L : List Bin)
    (ht : tilesFin lo hi L) (b : Bin) (hmem : b ∈ L) (v : ℚ)
    (hv : inBin v b = true) : L.countP (inBin v) = 1 := by
  obtain ⟨hlo, u, hu, hhi⟩ := tilesFin_mem_bounds L lo hi b ht hmem
  apply tilesFin_countP_eq_one L lo hi v ht
    (le_trans hlo (inBin_lower_le v b hv))
  rcases b with ⟨a, ou⟩
  cases hu
  exact lt_of_lt_of_le ((inBin_some_iff v a u).mp hv).2 hhi

theorem classify_roundtrip (L : List Bin) (vals : List ℚ)
    (hone : ∀ (v : ℚ) (b : Bin), b ∈ L → inBin v b = true →
      L.countP (inBin v) = 1)
    (hrep : ∀ (k : ℕ) (b : Bin), L[k]? = some b →
      ∃ rv, vals[k]? = some rv ∧ inBin rv b = true)
    (v : ℚ) (hv : strictlyInside v L) :
    classify (vals.getD (classify v L) 0) L = classify v L := by
  obtain ⟨b, hmem, hlow, hup⟩ := hv
  have hin : inBin v b = true := by
    rcases b with ⟨a, ou⟩
    cases ou with
    | none => exact (inBin_none_iff v a).mpr (le_of_lt hlow)
    | some u => exact (inBin_some_iff v a u).mpr ⟨le_of_lt hlow, hup⟩
  have hcount := hone v b hmem hin
  obtain ⟨k, b2, hk, hb2, hcl⟩ := countP_one_elim v L hcount
  rw [hcl]
  obtain ⟨rv, hrv, hrvin⟩ := hrep k b2 hk
  rw [List.getD_eq_getElem?_getD, hrv, Option.getD_some]
  have hcount2 := hone rv b2 (List.mem_iff_getElem?.mpr ⟨k, hk⟩) hrvin
  exact classify_eq_of_countP_one rv L k b2 hcount2 hk hrvin

/-- Representative values land inside their own bin, for any uniformly
spaced bin list of the shape produced by get_omega_bins / get_theta_bins
/ get_phi_bins. -/
theorem uniform_bins_rep (n : ℕ) (hn : 3 ≤ n) (a w : ℚ) (hwpos : 0 < w)
    (L : List Bin) (hlen : L.length = n)
    (helem : ∀ k, k < n →
      L[k]? = some (a + w * (k : ℚ), some (a + w * ((k : ℚ) + 1)))) :
    ∃ vals, get_bin_values L = some vals ∧
      ∀ (k : ℕ) (b : Bin), L[k]? = some b →
        ∃ rv, vals[k]? = some rv ∧ inBin rv b = true := by
  have h1 := helem 1 (by omega)
  have h2 := helem 2 (by omega)
  obtain ⟨vals, hv, hvlen, h0, hk⟩ := get_bin_values_eq L _ _ _ _ h1 h2
  refine ⟨vals, hv, ?_⟩
  intro k b hkb
  have hklt : k < n := by
    have := (List.getElem?_eq_some_iff.mp hkb).1
    omega
  have hbeq : b = (a + w * (k : ℚ), some (a + w * ((k : ℚ) + 1))) := by
    have h3 := helem k hklt
    rw [hkb] at h3
    exact Option.some.inj h3
  subst hbeq
  rcases Nat.eq_zero_or_pos k with rfl | hkpos
  · refine ⟨_, h0, ?_⟩
    rw [inBin_some_iff]
    constructor
    · push_cast
      linarith
    · push_cast
      linarith
  · refine ⟨(a + w * (k : ℚ)) +
      ((a + w * ((2 : ℕ) : ℚ)) - (a + w * ((1 : ℕ) : ℚ))) / 2, ?_, ?_⟩
    · rw [hk k hkpos, hkb]
      rfl
    · rw [inBin_some_iff]
      constructor
      · push_cast
        linarith
      · push_cast
        linarith

/-- Representative values land inside their own bin for the distance
bin list. -/
theorem dist_rep (m : ℕ) (bins : List Bin)
    (hb : get_dist_bins (m + 3) = some bins) :
    ∃ vals, get_bin_values bins = some vals ∧
      ∀ (k : ℕ) (b : Bin), bins[k]? = some b →
        ∃ rv, vals[k]? = some rv ∧ inBin rv b = true := by
  have h1 : bins[1]? = some ((4 : ℚ), some (4.5 : ℚ)) := by
    have h := dist_bins_getElem_mid m 1 bins hb (le_refl 1) (by omega)
    rw [h]
    norm_num
  have h2 : ∃ o2 : Option ℚ, bins[2]? = some ((4.5 : ℚ), o2) := by
    match m with
    | 0 =>
      have h := dist_bins_getElem_last 0 bins hb
      refine ⟨none, ?_⟩
      rw [show (2 : ℕ) = 0 + 2 from rfl, h]
      norm_num
    | (m' + 1) =>
      have h := dist_bins_getElem_mid (m' + 1) 2 bins hb (by omega) (by omega)
      refine ⟨some ((4 : ℚ) + 0.5 * (2 : ℚ)), ?_⟩
      rw [h]
      norm_num
  obtain ⟨o2, h2⟩ := h2
  obtain ⟨vals, hv, hvlen, h0, hkk⟩ := get_bin_values_eq bins 4 4.5 _ _ h1 h2
  refine ⟨vals, hv, ?_⟩
  intro k b hkb
  have hlen := dist_bins_length m bins hb
  have hklt : k < m + 3 := by
    have := (List.getElem?_eq_some_iff.mp hkb).1
    omega
  by_cases hk0 : k = 0
  · subst hk0
    have hbz := dist_bins_getElem_zero m bins hb
    rw [hkb] at hbz
    have hbe := Option.some.inj hbz
    subst hbe
    refine ⟨_, h0, ?_⟩
    rw [inBin_some_iff]
    norm_num
  by_cases hkmid : k ≤ m + 1
  · have hk1 : 1 ≤ k := by omega
    have hmid := dist_bins_getElem_mid m k bins hb hk1 hkmid
    rw [hkb] at hmid
    have hbe := Option.some.inj hmid
    subst hbe
    refine ⟨_, by rw [hkk k hk1, hkb]; rfl, ?_⟩
    rw [inBin_some_iff]
    constructor
    · norm_num
    · have : (0 : ℚ) ≤ (k : ℚ) := Nat.cast_nonneg k
      norm_num
      linarith
  · have hk2 : k = m + 2 := by omega
    subst hk2
    have hlast := dist_bins_getElem_last m bins hb
    rw [hkb] at hlast
    have hbe := Option.some.inj hlast
    subst hbe
    refine ⟨_, by rw [hkk _ (by omega), hkb]; rfl, ?_⟩
    rw [inBin_none_iff]
    norm_num

/-- C2: for num_bins ≥ 3 and a 4×N×N matrix whose values lie strictly
inside bin interiors for their channel, discretizing the reconstruction
yields the same class matrix as the first discretization:
bin_dist_angle_matrix (binned_mat_to_values (bin_dist_angle_matrix M) )
equals bin_dist_angle_matrix M. -/
theorem discretize_reconstruct_idempotent {N : ℕ} (num_bins : ℕ)
    (hn : 3 ≤ num_bins) (M : Fin 4 → Fin N → Fin N → ℚ)
    (hM : ∀ (c : Fin 4) (i j : Fin N),
      strictlyInside (M c i j)
        (channelBins ((get_dist_bins num_bins).getD []) num_bins c)) :
    ∃ B V, bin_dist_angle_matrix M num_bins = some B ∧
      binned_mat_to_values B num_bins = some V ∧
      bin_dist_angle_matrix V num_bins = some B := by
  obtain ⟨m, rfl⟩ : ∃ m, num_bins = m + 3 := ⟨num_bins - 3, by omega⟩
  obtain ⟨bins, hb⟩ : ∃ bins, get_dist_bins (m + 3) = some bins :=
    ⟨_, get_dist_bins_eq m⟩
  have hgetd : (get_dist_bins (m + 3)).getD [] = bins := by rw [hb]; rfl
  rw [hgetd] at hM
  have hn0 : (0 : ℚ) < ((m + 3 : ℕ) : ℚ) := by
    have : 0 < m + 3 := by omega
    exact_mod_cast this
  obtain ⟨vd, hvd, hrepd⟩ := dist_rep m bins hb
  obtain ⟨vo, hvo, hrepo⟩ := uniform_bins_rep (m + 3) (by omega) (-180)
    (2 * 180 / ((m + 3 : ℕ) : ℚ)) (div_pos (by norm_num) hn0)
    (get_omega_bins (m + 3)) (get_omega_bins_length _)
    (fun k hk => get_omega_bins_getElem (m + 3) k hk)
  obtain ⟨vt, hvt, hrept⟩ := uniform_bins_rep (m + 3) (by omega) (-180)
    (2 * 180 / ((m + 3 : ℕ) : ℚ)) (div_pos (by norm_num) hn0)
    (get_theta_bins (m + 3))
    (by rw [get_theta_bins_eq_omega]; exact get_omega_bins_length _)
    (fun k hk => by
      rw [get_theta_bins_eq_omega]
      exact get_omega_bins_getElem (m + 3) k hk)
  obtain ⟨vp, hvp, hrepp⟩ := uniform_bins_rep (m + 3) (by omega) 0
    (180 / ((m + 3 : ℕ) : ℚ)) (div_pos (by norm_num) hn0)
    (get_phi_bins (m + 3)) (get_phi_bins_length _)
    (fun k hk => get_phi_bins_getElem (m + 3) k hk)
  have hone0 : ∀ (v : ℚ) (b : Bin), b ∈ bins → inBin v b = true →
      bins.countP (inBin v) = 1 :=
    fun v b hmem hv =>
      countP_one_of_inBin_tiles 0 bins (dist_bins_tiles m bins hb) b hmem v hv
  have hone1 : ∀ (v : ℚ) (b : Bin), b ∈ get_omega_bins (m + 3) →
      inBin v b = true → (get_omega_bins (m + 3)).countP (inBin v) = 1 :=
    fun v b hmem hv =>
      countP_one_of_inBin_tilesFin (-180) 180 _
        (omega_bins_tilesFin (m + 3) (by omega)) b hmem v hv
  have hone2 : ∀ (v : ℚ) (b : Bin), b ∈ get_theta_bins (m + 3) →
      inBin v b = true → (get_theta_bins (m + 3)).countP (inBin v) = 1 := by
    rw [get_theta_bins_eq_omega]
    exact hone1
  have hone3 : ∀ (v : ℚ) (b : Bin), b ∈ get_phi_bins (m + 3) →
      inBin v b = true → (get_phi_bins (m + 3)).countP (inBin v) = 1 :=
    fun v b hmem hv =>
      countP_one_of_inBin_tilesFin 0 180 _
        (phi_bins_tilesFin (m + 3) (by omega)) b hmem v hv
  refine ⟨fun c i j => classify (M c i j) (channelBins bins (m + 3) c),
    fun c i j => (![vd, vo, vt, vp] c).getD
      (classify (M c i j) (channelBins bins (m + 3) c)) 0, ?_, ?_, ?_⟩
  · simp only [bin_dist_angle_matrix, hb]
  · simp only [binned_mat_to_values, hb, hvd, hvo, hvt, hvp]
  · simp only [bin_dist_angle_matrix, hb, Option.some.injEq]
    funext c i j
    fin_cases c
    · exact classify_roundtrip bins vd hone0 hrepd (M 0 i j) (hM 0 i j)
    · exact classify_roundtrip (get_omega_bins (m + 3)) vo hone1 hrepo
        (M 1 i j) (hM 1 i j)
    · exact classify_roundtrip (get_theta_bins (m + 3)) vt hone2 hrept
        (M 2 i j) (hM 2 i j)
    · exact classify_roundtrip (get_phi_bins (m + 3)) vp hone3 hrepp
        (M 3 i j) (hM 3 i j)

/-- Witness for C2 at num_bins = 3, N = 1, with channel values
(2, 0, 0, 90), each strictly inside a bin interior. -/
theorem discretize_reconstruct_idempotent_witness :
    (3 ≤ 3 ∧ ∀ (c : Fin 4) (i j : Fin 1),
      strictlyInside ((fun c (_ _ : Fin 1) => (![(2 : ℚ), 0, 0, 90]) c) c i j)
        (channelBins ((get_dist_bins 3).getD []) 3 c)) ∧
    (∃ B V, bin_dist_angle_matrix
        (fun c (_ _ : Fin 1) => (![(2 : ℚ), 0, 0, 90]) c) 3 = some B ∧
      binned_mat_to_values B 3 = some V ∧
      bin_dist_angle_matrix V 3 = some B) := by
  have hgd : (get_dist_bins 3).getD [] =
      [((0 : ℚ), some (4 : ℚ)), ((4 : ℚ), some (4.5 : ℚ)),
       ((4.5 : ℚ), (none : Option ℚ))] := by
    rw [show (3 : ℕ) = 0 + 3 from rfl, get_dist_bins_eq 0]
    norm_num [List.range_succ]
  have hom : get_omega_bins 3 =
      [((-180 : ℚ), some (-60 : ℚ)), ((-60 : ℚ), some (60 : ℚ)),
       ((60 : ℚ), some (180 : ℚ))] := by
    norm_num [get_omega_bins, List.range_succ]
  have hph : get_phi_bins 3 =
      [((0 : ℚ), some (60 : ℚ)), ((60 : ℚ), some (120 : ℚ)),
       ((120 : ℚ), some (180 : ℚ))] := by
    norm_num [get_phi_bins, List.range_succ]
  have hM : ∀ (c : Fin 4) (i j : Fin 1),
      strictlyInside ((fun c (_ _ : Fin 1) => (![(2 : ℚ), 0, 0, 90]) c) c i j)
        (channelBins ((get_dist_bins 3).getD []) 3 c) := by
    intro c i j
    fin_cases c
    · show strictlyInside 2 ((get_dist_bins 3).getD [])
      rw [hgd]
      exact ⟨((0 : ℚ), some (4 : ℚ)), by simp, by norm_num, by norm_num⟩
    · show strictlyInside 0 (get_omega_bins 3)
      rw [hom]
      exact ⟨((-60 : ℚ), some (60 : ℚ)), by simp, by norm_num, by norm_num⟩
    · show strictlyInside 0 (get_theta_bins 3)
      rw [get_theta_bins_eq_omega, hom]
      exact ⟨((-60 : ℚ), some (60 : ℚ)), by simp, by norm_num, by norm_num⟩
    · show strictlyInside 90 (get_phi_bins 3)
      rw [hph]
      exact ⟨((60 : ℚ), some (120 : ℚ)), by simp, by norm_num, by norm_num⟩
  exact ⟨⟨by norm_num, hM⟩,
    discretize_reconstruct_idempotent 3 (by norm_num) _ hM⟩

theorem norm3_vsub_comm (a b : V3) : norm3 (vsub a b) = norm3 (vsub b a) := by
  unfold norm3 dot3 vsub
  congr 1
  apply Finset.sum_congr rfl
  intro t _
  ring

theorem norm3_vsub_self (a : V3) : norm3 (vsub a a) = 0 := by
  unfold norm3 dot3 vsub
  simp

/-- C7: the distance matrix returned by generate_dist_matrix is symmetric
on valid cells and zero on the valid diagonal (with mask None every
residue counts as valid). -/
theorem generate_dist_matrix_symm {n : ℕ} (coords : Fin n → V3)
    (mask : Option (Fin n → Bool)) (fill : ℝ) (i j : Fin n)
    (hi : validAt mask i) (hj : validAt mask j) :
    generate_dist_matrix coords mask fill i j =
      generate_dist_matrix coords mask fill j i ∧
    generate_dist_matrix coords mask fill i i = 0 := by
  cases mask with
  | none => exact ⟨norm3_vsub_comm _ _, norm3_vsub_self _⟩
  | some m =>
    have hmi : m i = true := hi
    have hmj : m j = true := hj
    simp only [generate_dist_matrix, hmi, hmj, if_true, Nat.sub_self,
      Nat.add_zero, Nat.lt_irrefl, if_false]
    exact ⟨norm3_vsub_comm _ _, norm3_vsub_self _⟩

/-- Witness for C7 on a concrete 2-residue all-valid input. -/
theorem generate_dist_matrix_symm_witness :
    (validAt (some fun _ : Fin 2 => true) 0 ∧
     validAt (some fun _ : Fin 2 => true) 1) ∧
    (generate_dist_matrix (fun _ _ => (0 : ℝ))
        (some fun _ : Fin 2 => true) (-1) 0 1 =
      generate_dist_matrix (fun _ _ => (0 : ℝ))
        (some fun _ : Fin 2 => true) (-1) 1 0 ∧
     generate_dist_matrix (fun _ _ => (0 : ℝ))
        (some fun _ : Fin 2 => true) (-1) 0 0 = 0) :=
  ⟨⟨rfl, rfl⟩, generate_dist_matrix_symm _ _ _ 0 1 rfl rfl⟩

theorem not_mask_fill {n : ℕ} (mask : Fin n → Bool) (e : Fin n → Fin n → ℝ)
    (fill : ℝ) (k : Fin n) (hk : mask k = false) (j : Fin n) :
    (if 0 < (1 - if mask k then 1 else 0) + (1 - if mask j then 1 else 0)
      then fill else e k j) = fill ∧
    (if 0 < (1 - if mask j then 1 else 0) + (1 - if mask k then 1 else 0)
      then fill else e j k) = fill := by
  simp only [hk, Bool.false_eq_true, if_false]
  constructor <;> rw [if_pos (by omega)]

theorem and_mask_fill {n : ℕ} (mask g : Fin n → Bool) (e : Fin n → Fin n → ℝ)
    (fill : ℝ) (k : Fin n) (hk : mask k = false) (j : Fin n) :
    (if (mask j && g j) && (mask k && g k) then e k j else fill) = fill ∧
    (if (mask k && g k) && (mask j && g j) then e j k else fill) = fill := by
  rw [hk]
  simp

/-- C3: if residue k is masked invalid, every cell of row k and of column
k in all four channels of the stacked geometry matrix equals the
sentinel fill value -1. -/
theorem protein_dist_angle_matrix_sentinel {n : ℕ}
    (cb_ca_coords ca_coords cb_coords n_coords : Fin n → V3)
    (mask : Fin n → Bool) (k : Fin n) (hk : mask k = false) :
    ∃ out, protein_dist_angle_matrix cb_ca_coords ca_coords cb_coords
        n_coords mask = some out ∧
      ∀ (c : Fin 4) (j : Fin n), out c k j = -1 ∧ out c j k = -1 := by
  refine ⟨_, rfl, ?_⟩
  intro c j
  obtain ⟨cv, hc⟩ := c
  have hd := not_mask_fill mask
    (fun a b => norm3 (vsub (cb_ca_coords a) (cb_ca_coords b))) (-1) k hk j
  have h1 := and_mask_fill mask
    (fun i => if (∑ t, cb_coords i t) ≠ 0 then true else false)
    (fun a b => cb_cb_dihedral_entry ca_coords cb_coords a b) (-1) k hk j
  have h2 := and_mask_fill mask
    (fun i => if (∑ t, cb_coords i t) ≠ 0 then true else false)
    (fun a b => ca_cb_dihedral_entry ca_coords cb_coords n_coords b a)
    (-1) k hk j
  have h3 := and_mask_fill mask
    (fun i => if (∑ t, cb_coords i t) ≠ 0 then true else false)
    (fun a b => ca_cb_cb_planar_entry ca_coords cb_coords b a) (-1) k hk j
  match cv, hc with
  | 0, _ => exact hd
  | 1, _ => exact h1
  | 2, _ => exact h2
  | 3, _ => exact h3

/-- Witness for C3 on a concrete 1-residue input with the residue masked
invalid. -/
theorem protein_dist_angle_matrix_sentinel_witness :
    ((fun _ : Fin 1 => false) 0 = false) ∧
    (∃ out, protein_dist_angle_matrix (fun _ _ => (0 : ℝ))
        (fun _ _ => (0 : ℝ)) (fun _ _ => (0 : ℝ)) (fun _ _ => (0 : ℝ))
        (fun _ : Fin 1 => false) = some out ∧
      ∀ (c : Fin 4) (j : Fin 1), out c 0 j = -1 ∧ out c j 0 = -1) :=
  ⟨rfl, protein_dist_angle_matrix_sentinel _ _ _ _ _ 0 rfl⟩

/-- C5 (amended): for every rank-4 logits tensor, generate_probabilities
succeeds and returns the tensor whose shape is the input shape with the
channel axis rotated to the back (so the shape is unchanged only when the
channel count equals the trailing spatial dimensions), each output cell
holding the softmax of the logits over the channel axis at that cell. -/
theorem generate_probabilities_spec (o c l1 l2 : ℕ)
    (d : Fin o → Fin c → Fin l1 → Fin l2 → ℝ) :
    generate_probabilities ⟨[o, c, l1, l2], d⟩ =
      .ok ⟨[o, l1, l2, c], fun a i j ch => softmax (fun t => d a t i j) ch⟩ :=
  rfl

/-- Counterexample for C5: at input shape (1, 1, 2, 2) the output of
generate_probabilities has shape (1, 2, 2, 1), not the input shape, so
the output is not of the same shape as the input. -/
theorem generate_probabilities_shape_counterexample :
    Except.map Tensor.shape (generate_probabilities c5_input) =
      Except.ok [1, 2, 2, 1] ∧
    c5_input.shape ≠ [1, 2, 2, 1] :=
  ⟨rfl, by decide⟩

theorem generate_probabilities_isOk (t : Tensor) :
    (∃ p, generate_probabilities t = .ok p) ↔ t.shape.length = 4 := by
  obtain ⟨s, d⟩ := t
  match s with
  | [] => simp [generate_probabilities]
  | [a] => simp [generate_probabilities]
  | [a, b] => simp [generate_probabilities]
  | [a, b, c] => simp [generate_probabilities]
  | [a, b, c, e] => simp [generate_probabilities]
  | (a :: b :: c :: e :: f :: rest) => simp [generate_probabilities]

/-- C9 (amended): for every tensor with at least one axis, all of
positive size (the shapes on which the torch reductions are defined),
bin_matrix returns a prediction exactly when the method is "max" or
"avg" AND, when are_logits is set, the rank is 4; i.e. it raises
ValueError iff the method name is invalid or are_logits is set with a
non-rank-4 tensor (the latter raised by generate_probabilities even for
a valid method). -/
theorem bin_matrix_ok_iff (t : Tensor) (are_logits : Bool) (method : String)
    (hne : t.shape ≠ []) (hpos : ∀ dm ∈ t.shape, 0 < dm) :
    (∃ u, bin_matrix t are_logits method = .ok u) ↔
      ((method = "max" ∨ method = "avg") ∧
        (are_logits = true → t.shape.length = 4)) := by
  cases are_logits with
  | false =>
    by_cases hm : method = "max"
    · simp [bin_matrix, hm]
    · by_cases ha : method = "avg"
      · simp [bin_matrix, hm, ha]
      · simp [bin_matrix, hm, ha]
  | true =>
    cases hgp : generate_probabilities t with
    | error e =>
      have hlen : ¬ t.shape.length = 4 := by
        intro h4
        obtain ⟨p, hp⟩ := (generate_probabilities_isOk t).mpr h4
        rw [hgp] at hp
        exact Except.noConfusion hp
      simp [bin_matrix, hgp, hlen]
    | ok p =>
      have hlen : t.shape.length = 4 :=
        (generate_probabilities_isOk t).mp ⟨p, hgp⟩
      by_cases hm : method = "max"
      · simp [bin_matrix, hgp, hm, hlen]
      · by_cases ha : method = "avg"
        · simp [bin_matrix, hgp, hm, ha, hlen]
        · simp [bin_matrix, hgp, hm, ha, hlen]

/-- Witness for C9 (amended) at a concrete rank-1 tensor with
are_logits = false and method = "max". -/
theorem bin_matrix_ok_iff_witness :
    ((⟨[2], fun _ => (0 : ℝ)⟩ : Tensor).shape ≠ [] ∧
      ∀ dm ∈ (⟨[2], fun _ => (0 : ℝ)⟩ : Tensor).shape, 0 < dm) ∧
    ((∃ u, bin_matrix ⟨[2], fun _ => (0 : ℝ)⟩ false "max" = .ok u) ↔
      (("max" = "max" ∨ "max" = "avg") ∧
        (false = true →
          (⟨[2], fun _ => (0 : ℝ)⟩ : Tensor).shape.length = 4))) :=
  ⟨⟨by decide, by decide⟩,
    bin_matrix_ok_iff ⟨[2], fun _ => (0 : ℝ)⟩ false "max" (by decide) (by decide)⟩

/-- Counterexample for C9: with the default are_logits=True and a rank-3
input tensor (the very shape (logits, N, N) documented in the docstring
of bin_matrix), the valid method "max" still raises ValueError, coming
from the rank check of generate_probabilities; so bin_matrix does not
return a prediction without error for every input tensor under a valid
method name. -/
theorem bin_matrix_rank3_counterexample :
    bin_matrix c9_input true "max" =
      .error "Expected a shape with four dimensions (outmats, channels, L, L)" ∧
    ("max" = "max" ∨ "max" = "avg") :=
  ⟨rfl, Or.inl rfl⟩
